import Mathlib

/-
Verification of the route distance/optimization engine of the EDSM
multi-pather (src/main.py, class EDSMCalculator).

Modelling conventions:
- Python float values are idealized as exact numbers: coordinates are
  rationals (so the CSV codec stays computable and decidable), derived
  distances live in the reals (Euclidean distance uses a square root).
- The mutable calculator object (self.systems, self.route_log,
  self.jump_range) is modelled by an explicit CalcState record threaded
  through the methods that read or write it.
- Text is modelled as a list of characters; the csv writer is modelled
  by joining comma-separated fields with newlines, quoting fields that
  contain a quote, comma or newline and doubling inner quotes
  (QUOTE_MINIMAL), and the pandas CSV reader by the matching
  quote-aware scanner; the Python float repr/parse pair (which
  round-trips float values exactly) is modelled by an exact rational
  formatter and parser with the same round-trip property.
-/

/-- Coordinates dictionary of a star system (the x, y, z entries of
the coordinates dict built in get_system_coordinates and in
the method import_route_from_csv). -/
structure Coords where
  x : ℚ
  y : ℚ
  z : ℚ
deriving DecidableEq

/-- A star system record: the dict with keys name and coordinates used
throughout src/main.py. -/
structure Point where
  name : String
  coordinates : Coords
deriving DecidableEq

/-- EDSMCalculator.calculate_distance: Euclidean distance
sqrt((x2-x1)^2 + (y2-y1)^2 + (z2-z1)^2) between two coordinate dicts. -/
noncomputable def calculate_distance (coords1 coords2 : Coords) : ℝ :=
  Real.sqrt (((coords2.x : ℝ) - (coords1.x : ℝ)) ^ 2 +
    ((coords2.y : ℝ) - (coords1.y : ℝ)) ^ 2 +
    ((coords2.z : ℝ) - (coords1.z : ℝ)) ^ 2)

/-- Distance between two system records, as called at every call site:
calculate_distance applied to the coordinates fields of the two
records. -/
noncomputable def pointDist (a b : Point) : ℝ :=
  calculate_distance a.coordinates b.coordinates

/-- The loop body of EDSMCalculator.calculate_route_distances: walk the
consecutive pairs in order, appending one (fromName, toName, distance)
triple per pair and accumulating the running total left to right. -/
noncomputable def crdLoop : List Point → ℝ → List (String × String × ℝ) × ℝ
  | s1 :: s2 :: rest, total =>
      let d := pointDist s1 s2
      let r := crdLoop (s2 :: rest) (total + d)
      ((s1.name, s2.name, d) :: r.1, r.2)
  | _, total => ([], total)

/-- EDSMCalculator.calculate_route_distances on a given systems list:
distances start empty and total_distance starts at 0. -/
noncomputable def calculate_route_distances (systems : List Point) :
    List (String × String × ℝ) × ℝ :=
  crdLoop systems 0

/-- The leg triple built for one consecutive pair of the route. -/
noncomputable def legOf (a b : Point) : String × String × ℝ :=
  (a.name, b.name, pointDist a b)

/-- EDSMCalculator.calculate_jumps: returns 0 when jump_range <= 0
(guard against division by zero), otherwise math.ceil of the exact
division. -/
noncomputable def calculate_jumps (distance jump_range : ℝ) : ℤ :=
  if jump_range ≤ 0 then 0 else ⌈distance / jump_range⌉

/-- All ways of picking one element out of a list together with the
remaining elements in their original relative order, in position order.
This is the selection step of the itertools.permutations enumeration. -/
def selections {α : Type} : List α → List (α × List α)
  | [] => []
  | x :: xs => (x, xs) :: (selections xs).map (fun p => (p.1, x :: p.2))

/-- Fueled permutation enumeration; with fuel equal to the list length
it produces exactly the permutations in the order emitted by
itertools.permutations (lexicographic over input positions). -/
def permsN {α : Type} : ℕ → List α → List (List α)
  | 0, _ => [[]]
  | n + 1, l =>
      (selections l).flatMap (fun p => (permsN n p.2).map (fun q => p.1 :: q))

/-- itertools.permutations(l) as a list of lists, in enumeration
order. -/
def permutationsPy {α : Type} (l : List α) : List (List α) :=
  permsN l.length l

/-- The total tour distance computed inside optimize_route for one
candidate route: the generator sum of consecutive-pair distances,
accumulated left to right starting from 0. -/
noncomputable def consecDists : List Point → List ℝ
  | a :: b :: rest => pointDist a b :: consecDists (b :: rest)
  | _ => []

/-- Left-to-right sum (Python sum builtin) of the per-leg distances of a
candidate route inside optimize_route. -/
noncomputable def route_total (route : List Point) : ℝ :=
  (consecDists route).foldl (· + ·) 0

/-- One iteration of the selection loop in optimize_route: keep the
incumbent unless the new candidate is strictly shorter. The accumulator
none models the initial state shortest_distance = inf,
shortest_route = None: every real candidate total is below inf, so the
first candidate always replaces the initial state. -/
noncomputable def chooseShorter {α : Type} (f : α → ℝ)
    (acc : Option (ℝ × α)) (c : α) : Option (ℝ × α) :=
  match acc with
  | none => some (f c, c)
  | some (d, b) => if f c < d then some (f c, c) else some (d, b)

/-- EDSMCalculator.optimize_route on a given systems list: routes with
fewer than two systems are returned unchanged; otherwise the first
system is pinned and every permutation of the remainder is scored by
route_total, keeping the first strict minimizer. The none fallback is
unreachable because the permutation list is never empty. -/
noncomputable def optimize_route (systems : List Point) : List Point :=
  if systems.length < 2 then systems
  else
    match systems with
    | [] => systems
    | s0 :: rest =>
        match ((permutationsPy rest).map (fun p => s0 :: p)).foldl
            (chooseShorter route_total) none with
        | none => systems
        | some (_, best) => best

/-- One entry of EDSMCalculator.route_log: the dict appended by
log_route, holding the formatted timestamp, the list of system names
and the total distance. -/
structure RouteRecord where
  timestamp : String
  systems : List String
  distance : ℝ

/-- The mutable fields of the EDSMCalculator object set in its
constructor (system_names, which only feeds the UI autocomplete and is
loaded from a local file, is outside the modelled core). -/
structure CalcState where
  systems : List Point
  route_log : List RouteRecord
  jump_range : ℝ

/-- EDSMCalculator.log_route: appends one record whose systems field is
the freshly built list comprehension over the names of the passed route
and whose distance is the passed total. The wall-clock timestamp string
produced by datetime.now is passed in as the parameter now. -/
def log_route (st : CalcState) (now : String) (systems : List Point)
    (total_distance : ℝ) : CalcState :=
  { st with route_log :=
      st.route_log ++ [⟨now, systems.map Point.name, total_distance⟩] }

/-- Digit to character, used by the numeric formatter of the CSV
model. -/
def digitChar : ℕ → Char
  | 0 => '0'
  | 1 => '1'
  | 2 => '2'
  | 3 => '3'
  | 4 => '4'
  | 5 => '5'
  | 6 => '6'
  | 7 => '7'
  | 8 => '8'
  | 9 => '9'
  | _ => '*'

/-- Character to digit, used by the numeric parser of the CSV model. -/
def charToDigit (c : Char) : Option ℕ :=
  if '0' ≤ c ∧ c ≤ '9' then some (c.toNat - 48) else none

/-- Decimal rendering of a natural number, most significant digit
first. -/
def natStr (n : ℕ) : List Char :=
  if n = 0 then ['0'] else ((Nat.digits 10 n).reverse).map digitChar

/-- Parse a list of characters as a list of decimal digits; any
non-digit character fails the whole parse. -/
def parseDigits : List Char → Option (List ℕ)
  | [] => some []
  | c :: cs =>
      match charToDigit c, parseDigits cs with
      | some d, some ds => some (d :: ds)
      | _, _ => none

/-- Parse a nonempty all-digit character list as a natural number. -/
def parseNat (l : List Char) : Option ℕ :=
  if l.isEmpty then none
  else (parseDigits l).map (fun ds => Nat.ofDigits 10 ds.reverse)

/-- Decimal rendering of an integer, with a leading minus sign for
negative values. -/
def intStr (z : ℤ) : List Char :=
  if z < 0 then '-' :: natStr z.natAbs else natStr z.natAbs

/-- Parse an optional leading minus sign followed by digits as an
integer. -/
def parseInt (l : List Char) : Option ℤ :=
  if l.head? = some '-' then (parseNat l.tail).map (fun n => -(n : ℤ))
  else (parseNat l).map (fun n => (n : ℤ))

/-- Exact textual rendering of a rational coordinate, modelling the
repr of a Python float written by csv.writer (Python guarantees
float(repr(x)) == x; the model keeps the same exact round-trip using a
numerator/denominator rendering). -/
def fmtRat (q : ℚ) : List Char :=
  intStr q.num ++ '/' :: natStr q.den

/-- Split a character list on a separator character; models the
line/field splitting performed by the pandas CSV reader. -/
def splitOnChar (sep : Char) : List Char → List (List Char)
  | [] => [[]]
  | c :: cs =>
      if c = sep then [] :: splitOnChar sep cs
      else
        match splitOnChar sep cs with
        | [] => [[c]]
        | f :: r => (c :: f) :: r

/-- Join a list of lines or fields with a separator character; models
the text written by csv.writer. -/
def joinWith (sep : Char) : List (List Char) → List Char
  | [] => []
  | [l] => l
  | l :: ls => l ++ sep :: joinWith sep ls

/-- Parse one CSV field as a rational number, modelling the Python
float constructor applied to a field: a plain integer or a
numerator/denominator pair as written by fmtRat. -/
def parseRat (l : List Char) : Option ℚ :=
  match splitOnChar '/' l with
  | [a] => (parseInt a).map (fun z => (z : ℚ))
  | [a, b] =>
      (parseInt a).bind (fun z =>
        (parseNat b).bind (fun n =>
          if n = 0 then none else some (mkRat z n)))
  | _ => none

/-- The required CSV columns checked by import_route_from_csv. -/
def nameCol : List Char := "System Name".toList

/-- The X column header. -/
def xCol : List Char := "X".toList

/-- The Y column header. -/
def yCol : List Char := "Y".toList

/-- The Z column header. -/
def zCol : List Char := "Z".toList

/-- required_columns from import_route_from_csv. -/
def requiredColumns : List (List Char) := [nameCol, xCol, yCol, zCol]

/-- Prepend one character to the current (front) field of the current
(front) record while scanning CSV text from the left; the fallback
branches are unreachable because the scanner never produces an empty
record list or an empty field list. -/
def consField (c : Char) : List (List (List Char)) → List (List (List Char))
  | (f :: fs) :: rs => ((c :: f) :: fs) :: rs
  | [] :: rs => [[c]] :: rs
  | [] => [[[c]]]

/-- Quote-aware CSV scanner, the model of the pandas CSV reader: cut
the text into records of fields, where an unquoted comma separates
fields, an unquoted newline separates records, a double-quote toggles
the quoted state, and a doubled quote inside a quoted field is a
literal quote (the csv dialect written by csv.writer). The Bool
argument is the inside-a-quoted-field state. -/
def splitCsvAux : List Char → Bool → List (List (List Char))
  | [], _ => [[[]]]
  | c :: rest, true =>
      if c = '"' then
        match rest with
        | r0 :: rest2 =>
            if r0 = '"' then consField '"' (splitCsvAux rest2 true)
            else if r0 = ',' then
              match splitCsvAux rest2 false with
              | r :: rs => ([] :: r) :: rs
              | [] => [[[], []]]
            else if r0 = '\n' then [[]] :: splitCsvAux rest2 false
            else consField r0 (splitCsvAux rest2 false)
        | [] => [[[]]]
      else consField c (splitCsvAux rest true)
  | c :: rest, false =>
      if c = '"' then splitCsvAux rest true
      else if c = ',' then
        match splitCsvAux rest false with
        | r :: rs => ([] :: r) :: rs
        | [] => [[[], []]]
      else if c = '\n' then [[]] :: splitCsvAux rest false
      else consField c (splitCsvAux rest false)

/-- The records of fields of a CSV text, quotes honored. -/
def csvCells (text : List Char) : List (List (List Char)) :=
  splitCsvAux text false

/-- Decode one data row of the CSV input, given as its list of fields:
look each needed column up by its position in the header (pandas row
indexing by column name), and parse the three coordinate fields as
floats; any missing or unparsable field fails the row. -/
def parseRowO (header : List (List Char)) (fields : List (List Char)) :
    Option Point :=
  (fields.get? (header.indexOf nameCol)).bind (fun nm =>
    ((fields.get? (header.indexOf xCol)).bind parseRat).bind (fun x =>
      ((fields.get? (header.indexOf yCol)).bind parseRat).bind (fun y =>
        ((fields.get? (header.indexOf zCol)).bind parseRat).bind (fun z =>
          some ⟨String.mk nm, ⟨x, y, z⟩⟩))))

/-- Option traversal over a list: the whole decode fails as soon as one
row fails (the float constructor raising inside the row loop is caught
by the enclosing try of import_route_from_csv). -/
def mapMO {α β : Type} (f : α → Option β) : List α → Option (List β)
  | [] => some []
  | a :: l =>
      match f a with
      | none => none
      | some b =>
          match mapMO f l with
          | none => none
          | some bs => some (b :: bs)

/-- The decoding of a tokenized CSV input: check that every required
column occurs among the header fields, then decode every data row;
returns either the full decoded list or the error message produced by
the source (the column message from the explicit check, or the
generic import error built in the except branch for a row failure). -/
def importParseLines (header : List (List Char))
    (dataRows : List (List (List Char))) : Except String (List Point) :=
  if requiredColumns.all (fun c => header.contains c) then
    match mapMO (parseRowO header) dataRows with
    | some pts => .ok pts
    | none => .error "Error importing CSV: could not convert field to float"
  else
    .error "Invalid CSV format. Required columns: System Name, X, Y, Z"

/-- The pure decoding part of EDSMCalculator.import_route_from_csv:
tokenize the text into records, treat the first record as the header
and the rest as data rows. -/
def importParse (text : List Char) : Except String (List Point) :=
  match csvCells text with
  | [] => .error "Error importing CSV: empty input"
  | header :: dataRows => importParseLines header dataRows

/-- EDSMCalculator.import_route_from_csv on the calculator state: on a
successful decode the decoded systems are appended to self.systems by
the extend call and the success flag and message are returned; on any
failure the state is unchanged and the error message is returned. -/
def import_route_from_csv (st : CalcState) (text : List Char) :
    CalcState × Bool × String :=
  match importParse text with
  | .ok imported =>
      ({ st with systems := st.systems ++ imported }, true,
        "Successfully imported " ++ toString imported.length ++ " systems")
  | .error msg => (st, false, msg)

/-- Does csv.writer with QUOTE_MINIMAL have to quote this field: yes
exactly when it contains a quote, the delimiter or a record
separator. -/
def needsQuote (f : List Char) : Bool :=
  f.any (fun c => c == '"' || c == ',' || c == '\n')

/-- Double every quote character of a field body, as csv.writer does
inside a quoted field. -/
def escapeQuotes : List Char → List Char
  | [] => []
  | c :: rest =>
      if c = '"' then '"' :: '"' :: escapeQuotes rest
      else c :: escapeQuotes rest

/-- One encoded CSV field, csv.writer QUOTE_MINIMAL style: quoted with
inner quotes doubled when the field needs it, verbatim otherwise. -/
def encodeField (f : List Char) : List Char :=
  if needsQuote f then '"' :: (escapeQuotes f ++ ['"']) else f

/-- One encoded CSV record: its fields, each encoded, joined by
commas. -/
def encodeRecord (fields : List (List Char)) : List Char :=
  joinWith ',' (fields.map encodeField)

/-- The four raw field values of one exported system row: the name and
the three printed coordinates, in the fixed column order. -/
def recordFields (s : Point) : List (List Char) :=
  [s.name.data, fmtRat s.coordinates.x, fmtRat s.coordinates.y,
    fmtRat s.coordinates.z]

/-- One encoded CSV row of export_route_to_csv: the four field values
of the system written through the csv.writer field encoding. -/
def rowChars (s : Point) : List Char :=
  encodeRecord (recordFields s)

/-- The fixed header row written by export_route_to_csv. -/
def headerChars : List Char := "System Name,X,Y,Z".toList

/-- EDSMCalculator.export_route_to_csv restricted to the text it
produces: none when the route is empty (the source returns False
without writing), otherwise the header line followed by one line per
system in route order (the file-system destination is outside the
modelled core). -/
def export_route_to_csv (systems : List Point) : Option (List Char) :=
  if systems = [] then none
  else some (joinWith '\n' (headerChars :: systems.map rowChars))

/-- The malformation condition of claim C5 on a tokenized input: some
required column is missing from the header fields, or some data row
has an X, Y or Z field that is absent or fails the float parse. -/
def csvMalformedLines (header : List (List Char))
    (dataRows : List (List (List Char))) : Bool :=
  (!(requiredColumns.all (fun c => header.contains c))) ||
  dataRows.any (fun fields =>
    [xCol, yCol, zCol].any (fun c =>
      ((fields.get? (header.indexOf c)).bind parseRat).isNone))

/-- The malformation condition of claim C5 as an executable check on
the raw text. -/
def csvMalformedB (text : List Char) : Bool :=
  match csvCells text with
  | [] => true
  | header :: dataRows => csvMalformedLines header dataRows

/-- The externally triggerable mutations of the calculator state, used
to express frame properties of the history log: adding a system
(add_system), clearing the route (clear_systems), importing a CSV
(handle_upload), arbitrary replacement of the live route (removal and
reordering included), recording a route, and setting the jump range. -/
inductive CalcOp where
  | appendSystem (s : Point)
  | clearSystems
  | importCsv (text : List Char)
  | setSystems (l : List Point)
  | logRoute (now : String) (systems : List Point) (total : ℝ)
  | setJumpRange (r : ℝ)

/-- Apply one calculator operation to the state. -/
def applyOp : CalcOp → CalcState → CalcState
  | .appendSystem s, st => { st with systems := st.systems ++ [s] }
  | .clearSystems, st => { st with systems := [] }
  | .importCsv text, st => (import_route_from_csv st text).1
  | .setSystems l, st => { st with systems := l }
  | .logRoute now systems total, st => log_route st now systems total
  | .setJumpRange r, st => { st with jump_range := r }

/-- Apply a sequence of calculator operations in order. -/
def applyOps (ops : List CalcOp) (st : CalcState) : CalcState :=
  ops.foldl (fun s op => applyOp op s) st

/-- The method view of optimize_route: it reads self.systems and writes
nothing back to the object. -/
noncomputable def optimize_route_method (st : CalcState) :
    CalcState × List Point :=
  (st, optimize_route st.systems)

/-- Sample system used by concrete witnesses (the A(0,0,0) scenario
point of the spec). -/
def pA : Point := ⟨"Alpha", ⟨0, 0, 0⟩⟩

/-- Sample system used by concrete witnesses (the B(3,0,0) scenario
point of the spec). -/
def pB : Point := ⟨"Beta", ⟨3, 0, 0⟩⟩

/-- Sample system used by concrete witnesses (the C(3,4,0) scenario
point of the spec). -/
def pC : Point := ⟨"Gamma", ⟨3, 4, 0⟩⟩

/-- C9: for all coordinate pairs, the distance of a point to itself is
0, distance is symmetric and non-negative, and the distance between two
system records depends only on their coordinates, never on their
names. -/
theorem calculate_distance_props (a b : Coords) :
    calculate_distance a a = 0 ∧
    calculate_distance a b = calculate_distance b a ∧
    0 ≤ calculate_distance a b ∧
    ∀ n1 n2 m1 m2 : String,
      pointDist ⟨n1, a⟩ ⟨n2, b⟩ = pointDist ⟨m1, a⟩ ⟨m2, b⟩ := by
  refine ⟨?_, ?_, Real.sqrt_nonneg _, fun n1 n2 m1 m2 => rfl⟩
  · simp [calculate_distance, sub_self]
  · unfold calculate_distance
    congr 1
    ring

/-- C4: for a non-negative distance and a positive range limit,
calculate_jumps returns exactly the ceiling of the exact division; on
distance 0 it returns 0; and the returned count is the least integer
number of legs of length at most the range limit that covers the
distance. -/
theorem calculate_jumps_spec (d r : ℝ) (_hd : 0 ≤ d) (hr : 0 < r) :
    calculate_jumps d r = ⌈d / r⌉ ∧
    calculate_jumps 0 r = 0 ∧
    d ≤ (calculate_jumps d r : ℝ) * r ∧
    ∀ k : ℤ, d ≤ (k : ℝ) * r → calculate_jumps d r ≤ k := by
  have hnr : ¬ r ≤ 0 := not_le.mpr hr
  have h1 : calculate_jumps d r = ⌈d / r⌉ := by
    simp [calculate_jumps, hnr]
  refine ⟨h1, ?_, ?_, ?_⟩
  · simp [calculate_jumps, hnr]
  · rw [h1]
    have h2 : d / r ≤ (⌈d / r⌉ : ℝ) := Int.le_ceil (d / r)
    have h3 : d / r * r ≤ (⌈d / r⌉ : ℝ) * r :=
      mul_le_mul_of_nonneg_right h2 (le_of_lt hr)
    rwa [div_mul_cancel₀ d (ne_of_gt hr)] at h3
  · intro k hk
    rw [h1]
    exact Int.ceil_le.mpr ((div_le_iff₀ hr).mpr hk)

/-- Witness for C4 at the concrete scenario distance 7 and range 5. -/
theorem calculate_jumps_spec_witness :
    calculate_jumps 7 5 = ⌈(7 : ℝ) / 5⌉ :=
  (calculate_jumps_spec 7 5 (by norm_num) (by norm_num)).1

/-- C3 counterexample: at range limit 0 the source returns the integer
0 itself, so the result is not a sentinel distinct from zero and is
conflated with zero jumps. -/
theorem calculate_jumps_zero_is_zero : calculate_jumps 7 0 = 0 := by
  simp [calculate_jumps]

/-- C3 amended: for every range limit r less than or equal to 0,
calculate_jumps returns the integer 0 (the distinct N/A presentation is
produced by the caller update_results, which tests jump_range > 0
itself and never uses this return value in that case). -/
theorem calculate_jumps_nonpos_range (d r : ℝ) (h : r ≤ 0) :
    calculate_jumps d r = 0 := by
  simp [calculate_jumps, h]

/-- Witness for the amended C3 at distance 3 and range -2. -/
theorem calculate_jumps_nonpos_range_witness :
    calculate_jumps 3 (-2) = 0 :=
  calculate_jumps_nonpos_range 3 (-2) (by norm_num)

/-- The legs list built by the route distance loop is the zip of the
route with its own tail under legOf, whatever the running total. -/
theorem crdLoop_legs :
    ∀ (systems : List Point) (acc : ℝ),
      (crdLoop systems acc).1 = List.zipWith legOf systems systems.tail := by
  intro systems
  induction systems with
  | nil => intro acc; rfl
  | cons s1 rest ih =>
    intro acc
    cases rest with
    | nil => rfl
    | cons s2 rest2 =>
      simp only [crdLoop, List.zipWith, List.tail_cons, legOf]
      exact congrArg (List.cons _) (ih _)

/-- The total returned by the route distance loop is the left-to-right
fold of the per-leg distances over the starting accumulator. -/
theorem crdLoop_total :
    ∀ (systems : List Point) (acc : ℝ),
      (crdLoop systems acc).2 =
        ((crdLoop systems acc).1.map (fun leg => leg.2.2)).foldl (· + ·) acc := by
  intro systems
  induction systems with
  | nil => intro acc; rfl
  | cons s1 rest ih =>
    intro acc
    cases rest with
    | nil => rfl
    | cons s2 rest2 =>
      simp only [crdLoop, List.map_cons, List.foldl_cons]
      exact ih _

/-- Indexing the zip of a list with its own tail. -/
theorem zipWith_tail_get? :
    ∀ (l : List Point) (i : ℕ) (a b : Point),
      l.get? i = some a → l.get? (i + 1) = some b →
      (List.zipWith legOf l l.tail).get? i = some (legOf a b) := by
  intro l
  induction l with
  | nil => intro i a b ha _; simp at ha
  | cons x rest ih =>
    intro i a b ha hb
    cases rest with
    | nil =>
      cases i with
      | zero => simp at hb
      | succ j => simp at ha
    | cons y rest2 =>
      cases i with
      | zero =>
        simp only [List.get?_cons_zero, Option.some_inj] at ha
        simp only [List.get?_cons_succ, List.get?_cons_zero, Option.some_inj] at hb
        subst ha; subst hb
        rfl
      | succ j =>
        have h1 : (y :: rest2).get? j = some a := by simpa using ha
        have h2 : (y :: rest2).get? (j + 1) = some b := by simpa using hb
        have := ih j a b h1 h2
        simpa using this

/-- C2: calculate_route_distances returns exactly max(n-1, 0) legs in
input order, leg i being the triple of the names of systems i and i+1
and their distance; the total is the left-to-right fold of the leg
distances starting at 0; and a route with fewer than two systems yields
no legs and total 0. -/
theorem calculate_route_distances_spec (systems : List Point) :
    (calculate_route_distances systems).1.length = systems.length - 1 ∧
    (∀ (i : ℕ) (a b : Point),
      systems.get? i = some a → systems.get? (i + 1) = some b →
      (calculate_route_distances systems).1.get? i =
        some (a.name, b.name, pointDist a b)) ∧
    (calculate_route_distances systems).2 =
      ((calculate_route_distances systems).1.map (fun leg => leg.2.2)).foldl
        (· + ·) 0 ∧
    (systems.length < 2 →
      (calculate_route_distances systems).1 = [] ∧
      (calculate_route_distances systems).2 = 0) := by
  refine ⟨?_, ?_, crdLoop_total systems 0, ?_⟩
  · rw [calculate_route_distances, crdLoop_legs]
    rw [List.length_zipWith, List.length_tail]
    omega
  · intro i a b ha hb
    rw [calculate_route_distances, crdLoop_legs]
    exact zipWith_tail_get? systems i a b ha hb
  · intro h
    match systems, h with
    | [], _ => exact ⟨rfl, rfl⟩
    | [s], _ => exact ⟨rfl, rfl⟩

/-- Witness for C2 on the concrete two-system route. -/
theorem calculate_route_distances_spec_witness :
    (calculate_route_distances [pA, pB]).1.get? 0 =
      some (pA.name, pB.name, pointDist pA pB) :=
  (calculate_route_distances_spec [pA, pB]).2.1 0 pA pB rfl rfl

/-- Every selection drops exactly one element. -/
theorem selections_length {α : Type} :
    ∀ (l : List α) (p : α × List α), p ∈ selections l →
      p.2.length + 1 = l.length := by
  intro l
  induction l with
  | nil => intro p h; simp [selections] at h
  | cons x xs ih =>
    intro p h
    simp only [selections, List.mem_cons, List.mem_map] at h
    rcases h with rfl | ⟨q, hq, rfl⟩
    · simp
    · have := ih q hq
      simp only [List.length_cons]
      omega

/-- Putting a selected element back in front yields a permutation of
the original list. -/
theorem selections_perm {α : Type} :
    ∀ (l : List α) (p : α × List α), p ∈ selections l →
      (p.1 :: p.2).Perm l := by
  intro l
  induction l with
  | nil => intro p h; simp [selections] at h
  | cons x xs ih =>
    intro p h
    simp only [selections, List.mem_cons, List.mem_map] at h
    rcases h with rfl | ⟨q, hq, rfl⟩
    · exact List.Perm.refl _
    · exact (List.Perm.swap x q.1 q.2).trans (((ih q hq).cons x))

/-- Every element of a list occurs as a selection together with the
list with its first occurrence erased. -/
theorem selections_complete {α : Type} [DecidableEq α] :
    ∀ (l : List α) (x : α), x ∈ l → (x, l.erase x) ∈ selections l := by
  intro l
  induction l with
  | nil => intro x h; simp at h
  | cons y ys ih =>
    intro x hx
    by_cases hxy : x = y
    · subst hxy
      simp [selections, List.erase_cons_head]
    · have hx' : x ∈ ys := by
        rcases List.mem_cons.mp hx with h | h
        · exact absurd h hxy
        · exact h
      have herase : (y :: ys).erase x = y :: ys.erase x := by
        rw [List.erase_cons_tail]
        simp [Ne.symm hxy]
      rw [herase]
      simp only [selections, List.mem_cons, List.mem_map]
      exact Or.inr ⟨(x, ys.erase x), ih x hx', rfl⟩

/-- Soundness of the permutation enumeration: with fuel equal to the
list length, every enumerated list is a permutation of the input. -/
theorem permsN_sound {α : Type} :
    ∀ (n : ℕ) (l : List α), n = l.length →
      ∀ p ∈ permsN n l, p.Perm l := by
  intro n
  induction n with
  | zero =>
    intro l hl p hp
    have hnil : l = [] := List.length_eq_zero.mp hl.symm
    subst hnil
    simp only [permsN, List.mem_singleton] at hp
    subst hp
    exact List.Perm.refl _
  | succ n ih =>
    intro l hl p hp
    simp only [permsN, List.mem_flatMap, List.mem_map] at hp
    obtain ⟨q, hq, r, hr, rfl⟩ := hp
    have hlen : n = q.2.length := by
      have := selections_length l q hq
      omega
    exact ((ih q.2 hlen r hr).cons q.1).trans (selections_perm l q hq)

/-- Completeness of the permutation enumeration: with fuel equal to the
list length, every permutation of the input is enumerated. -/
theorem permsN_complete {α : Type} [DecidableEq α] :
    ∀ (n : ℕ) (l : List α) (p : List α), n = l.length →
      p.Perm l → p ∈ permsN n l := by
  intro n
  induction n with
  | zero =>
    intro l p hl hp
    have hnil : l = [] := List.length_eq_zero.mp hl.symm
    subst hnil
    have : p = [] := hp.eq_nil
    subst this
    simp [permsN]
  | succ n ih =>
    intro l p hl hp
    cases p with
    | nil =>
      have : l = [] := hp.symm.eq_nil
      subst this
      simp at hl
    | cons x q =>
      have hx : x ∈ l := hp.subset (List.mem_cons_self x q)
      have hq : q.Perm (l.erase x) := (List.cons_perm_iff_perm_erase.mp hp).2
      have hlen : n = (l.erase x).length := by
        rw [List.length_erase_of_mem hx]
        omega
      simp only [permsN, List.mem_flatMap, List.mem_map]
      exact ⟨(x, l.erase x), selections_complete l x hx,
        q, ih (l.erase x) q hlen hq, rfl⟩

/-- The permutation list of any list is nonempty: the list itself is
enumerated. -/
theorem self_mem_permutationsPy {α : Type} [DecidableEq α] (l : List α) :
    l ∈ permutationsPy l :=
  permsN_complete l.length l l rfl (List.Perm.refl l)

/-- The selection loop of optimize_route, started on a concrete
incumbent, returns the first strict minimizer of the measure: the
candidate sequence splits around the returned element, everything
strictly before it has strictly larger measure, and nothing anywhere
has smaller measure. -/
theorem foldl_chooseShorter_spec {α : Type} (f : α → ℝ) :
    ∀ (cs : List α) (b : α),
      ∃ b' pre post,
        b :: cs = pre ++ b' :: post ∧
        cs.foldl (chooseShorter f) (some (f b, b)) = some (f b', b') ∧
        (∀ c ∈ pre, f b' < f c) ∧
        (∀ c ∈ b :: cs, f b' ≤ f c) := by
  intro cs
  induction cs with
  | nil =>
    intro b
    refine ⟨b, [], [], rfl, rfl, by simp, ?_⟩
    intro c hc
    rcases List.mem_singleton.mp hc with rfl
    exact le_refl _
  | cons c cs' ih =>
    intro b
    by_cases h : f c < f b
    · have hstep : (c :: cs').foldl (chooseShorter f) (some (f b, b)) =
          cs'.foldl (chooseShorter f) (some (f c, c)) := by
        simp [List.foldl_cons, chooseShorter, h]
      obtain ⟨b', pre', post', hdec, hfold, hpre, hmin⟩ := ih c
      refine ⟨b', b :: pre', post', ?_, ?_, ?_, ?_⟩
      · rw [List.cons_append, ← hdec]
      · rw [hstep]; exact hfold
      · intro x hx
        rcases List.mem_cons.mp hx with rfl | hx'
        · exact lt_of_le_of_lt (hmin c (List.mem_cons_self c cs')) h
        · exact hpre x hx'
      · intro x hx
        rcases List.mem_cons.mp hx with rfl | hx'
        · exact le_of_lt (lt_of_le_of_lt (hmin c (List.mem_cons_self c cs')) h)
        · exact hmin x hx'
    · have hstep : (c :: cs').foldl (chooseShorter f) (some (f b, b)) =
          cs'.foldl (chooseShorter f) (some (f b, b)) := by
        simp [List.foldl_cons, chooseShorter, h]
      obtain ⟨b', pre', post', hdec, hfold, hpre, hmin⟩ := ih b
      cases pre' with
      | nil =>
        simp only [List.nil_append, List.cons.injEq] at hdec
        obtain ⟨hb, hpost⟩ := hdec
        refine ⟨b, [], c :: cs', rfl, ?_, by simp, ?_⟩
        · rw [hstep, hfold, hb]
        · intro x hx
          rcases List.mem_cons.mp hx with rfl | hx'
          · exact le_refl _
          · rcases List.mem_cons.mp hx' with rfl | hx''
            · exact not_lt.mp h
            · rw [hb]
              exact hmin x (List.mem_cons_of_mem b hx'')
      | cons p0 pre'' =>
        simp only [List.cons_append, List.cons.injEq] at hdec
        obtain ⟨hp0, hcs⟩ := hdec
        have hb'b : f b' < f b := by
          rw [hp0]
          exact hpre p0 (List.mem_cons_self p0 pre'')
        refine ⟨b', b :: c :: pre'', post', ?_, ?_, ?_, ?_⟩
        · rw [hcs]; simp
        · rw [hstep]; exact hfold
        · intro x hx
          rcases List.mem_cons.mp hx with rfl | hx'
          · exact hb'b
          · rcases List.mem_cons.mp hx' with rfl | hx''
            · exact lt_of_lt_of_le hb'b (not_lt.mp h)
            · exact hpre x (List.mem_cons_of_mem p0 hx'')
        · intro x hx
          rcases List.mem_cons.mp hx with rfl | hx'
          · exact le_of_lt hb'b
          · rcases List.mem_cons.mp hx' with rfl | hx''
            · exact le_of_lt (lt_of_lt_of_le hb'b (not_lt.mp h))
            · exact hmin x (List.mem_cons_of_mem b hx'')

/-- Decompose a mapped list around one element of the image. -/
theorem map_eq_append_cons {α β : Type} (g : α → β) :
    ∀ (l : List α) (l1 : List β) (x : β) (l2 : List β),
      l.map g = l1 ++ x :: l2 →
      ∃ m1 q m2, l = m1 ++ q :: m2 ∧ l1 = m1.map g ∧ x = g q ∧
        l2 = m2.map g := by
  intro l
  induction l with
  | nil =>
    intro l1 x l2 h
    rw [List.map_nil] at h
    exact absurd h.symm (List.append_ne_nil_of_right_ne_nil l1 (List.cons_ne_nil x l2))
  | cons a as ih =>
    intro l1 x l2 h
    cases l1 with
    | nil =>
      simp only [List.map_cons, List.nil_append, List.cons.injEq] at h
      exact ⟨[], a, as, rfl, rfl, h.1.symm, h.2.symm⟩
    | cons b bs =>
      simp only [List.map_cons, List.cons_append, List.cons.injEq] at h
      obtain ⟨hb, hrest⟩ := h
      obtain ⟨m1, q, m2, h1, h2, h3, h4⟩ := ih bs x l2 hrest
      exact ⟨a :: m1, q, m2, by rw [h1]; rfl, by simp [hb.symm, h2], h3, h4⟩

/-- Core specification of optimize_route on a route of length at least
two: the result pins the first system, its tail is the first
permutation in enumeration order achieving the minimal total, every
earlier permutation is strictly worse, and no permutation of the tail
at all does better. -/
theorem optimize_route_spec_core (s0 : Point) (rest : List Point)
    (hlen : 2 ≤ (s0 :: rest).length) :
    ∃ best pre post,
      optimize_route (s0 :: rest) = s0 :: best ∧
      best.Perm rest ∧
      permutationsPy rest = pre ++ best :: post ∧
      (∀ q ∈ pre, route_total (s0 :: best) < route_total (s0 :: q)) ∧
      (∀ p : List Point, p.Perm rest →
        route_total (s0 :: best) ≤ route_total (s0 :: p)) := by
  obtain ⟨c0, ctail, hc⟩ : ∃ c0 ctail, permutationsPy rest = c0 :: ctail := by
    cases hE : permutationsPy rest with
    | nil =>
        exact absurd (hE ▸ self_mem_permutationsPy rest) (List.not_mem_nil rest)
    | cons a b => exact ⟨a, b, rfl⟩
  obtain ⟨b', pre_c, post_c, hdec, hfold, hpre_c, hmin_c⟩ :=
    foldl_chooseShorter_spec route_total (ctail.map (fun p => s0 :: p)) (s0 :: c0)
  have hmapdec : (permutationsPy rest).map (fun p => s0 :: p) =
      pre_c ++ b' :: post_c := by
    rw [hc, List.map_cons]
    exact hdec
  obtain ⟨pre, best, post, hsplit, hpre_eq, hb'_eq, hpost_eq⟩ :=
    map_eq_append_cons _ (permutationsPy rest) pre_c b' post_c hmapdec
  have hb2 : b' = s0 :: best := hb'_eq
  have hopt : optimize_route (s0 :: rest) = b' := by
    unfold optimize_route
    rw [if_neg (by simp at hlen ⊢; omega : ¬ (s0 :: rest).length < 2)]
    show (match ((permutationsPy rest).map (fun p => s0 :: p)).foldl
        (chooseShorter route_total) none with
      | none => s0 :: rest
      | some (_, best) => best) = b'
    rw [hc, List.map_cons, List.foldl_cons]
    show (match (ctail.map (fun p => s0 :: p)).foldl (chooseShorter route_total)
        (some (route_total (s0 :: c0), s0 :: c0)) with
      | none => s0 :: rest
      | some (_, best) => best) = b'
    rw [hfold]
  have hmem_all : ∀ p : List Point, p.Perm rest →
      route_total b' ≤ route_total (s0 :: p) := by
    intro p hp
    have hpin : p ∈ permutationsPy rest :=
      permsN_complete rest.length rest p rfl hp
    have hmem : s0 :: p ∈ (s0 :: c0) :: ctail.map (fun q => s0 :: q) := by
      have : s0 :: p ∈ (permutationsPy rest).map (fun q => s0 :: q) :=
        List.mem_map_of_mem _ hpin
      rw [hc, List.map_cons] at this
      exact this
    have := hmin_c (s0 :: p) hmem
    simpa using this
  refine ⟨best, pre, post, by rw [hopt, hb2], ?_, hsplit, ?_, ?_⟩
  · have hbest_mem : best ∈ permutationsPy rest := by
      rw [hsplit]
      exact List.mem_append.mpr (Or.inr (List.mem_cons_self best post))
    exact permsN_sound rest.length rest rfl best hbest_mem
  · intro q hq
    have hmemc : s0 :: q ∈ pre_c := by
      rw [hpre_eq]
      exact List.mem_map_of_mem _ hq
    have := hpre_c (s0 :: q) hmemc
    rw [hb2] at this
    simpa using this
  · intro p hp
    have := hmem_all p hp
    rw [hb2] at this
    exact this

/-- C1: on a route of length below two, optimize_route returns the
route unchanged; on a longer route it returns the pinned first system
followed by a permutation of the remaining systems, that permutation is
the first one in the itertools enumeration order achieving the minimal
total leg-sum distance (every earlier permutation is strictly worse),
and no permutation of the remaining systems gives a smaller total. -/
theorem optimize_route_spec (systems : List Point) :
    (systems.length < 2 → optimize_route systems = systems) ∧
    ∀ s0 rest, systems = s0 :: rest → 2 ≤ systems.length →
      ∃ best pre post,
        optimize_route systems = s0 :: best ∧
        best.Perm rest ∧
        permutationsPy rest = pre ++ best :: post ∧
        (∀ q ∈ pre, route_total (s0 :: best) < route_total (s0 :: q)) ∧
        (∀ p : List Point, p.Perm rest →
          route_total (s0 :: best) ≤ route_total (s0 :: p)) := by
  constructor
  · intro h
    unfold optimize_route
    rw [if_pos h]
  · intro s0 rest h1 h2
    subst h1
    exact optimize_route_spec_core s0 rest h2

/-- Witness for C1 on the concrete two-system route. -/
theorem optimize_route_spec_witness :
    ∃ best pre post,
      optimize_route [pA, pB] = pA :: best ∧
      best.Perm [pB] ∧
      permutationsPy [pB] = pre ++ best :: post ∧
      (∀ q ∈ pre, route_total (pA :: best) < route_total (pA :: q)) ∧
      (∀ p : List Point, p.Perm [pB] →
        route_total (pA :: best) ≤ route_total (pA :: p)) :=
  (optimize_route_spec [pA, pB]).2 pA [pB] rfl (by decide)

/-- C8: the optimize_route method writes nothing back to the
calculator state (the state after the call is the state before it, in
particular the stored systems list is unchanged), and on a route of
length at least two the returned sequence consists of the pinned first
stored system followed by a permutation of the remaining stored
systems, so it references exactly the stored Point values. -/
theorem optimize_route_no_mutation (st : CalcState) :
    (optimize_route_method st).1 = st ∧
    (optimize_route_method st).1.systems = st.systems ∧
    (2 ≤ st.systems.length →
      ∃ s0 rest best, st.systems = s0 :: rest ∧
        (optimize_route_method st).2 = s0 :: best ∧ best.Perm rest) := by
  refine ⟨rfl, rfl, ?_⟩
  intro h
  cases hE : st.systems with
  | nil => rw [hE] at h; simp at h
  | cons s0 rest =>
    rw [hE] at h
    obtain ⟨best, pre, post, hopt, hperm, _, _, _⟩ :=
      optimize_route_spec_core s0 rest h
    refine ⟨s0, rest, best, rfl, ?_, hperm⟩
    show optimize_route st.systems = s0 :: best
    rw [hE, hopt]

/-- Witness for C8 on a concrete calculator state holding two
systems. -/
theorem optimize_route_no_mutation_witness :
    ∃ s0 rest best,
      (CalcState.mk [pA, pB] [] 0).systems = s0 :: rest ∧
      (optimize_route_method (CalcState.mk [pA, pB] [] 0)).2 = s0 :: best ∧
      best.Perm rest :=
  (optimize_route_no_mutation (CalcState.mk [pA, pB] [] 0)).2.2 (by decide)

/-- The history log never shrinks under any calculator operation. -/
theorem applyOp_log_length (op : CalcOp) (st : CalcState) :
    st.route_log.length ≤ (applyOp op st).route_log.length := by
  cases op with
  | appendSystem s => exact le_refl _
  | clearSystems => exact le_refl _
  | importCsv text =>
      show st.route_log.length ≤ (import_route_from_csv st text).1.route_log.length
      unfold import_route_from_csv
      cases importParse text with
      | ok imported => exact le_refl _
      | error msg => exact le_refl _
  | setSystems l => exact le_refl _
  | logRoute now systems total =>
      show st.route_log.length ≤ (st.route_log ++ [_]).length
      rw [List.length_append]
      omega
  | setJumpRange r => exact le_refl _

/-- Any already recorded prefix of the history log is left unchanged by
any calculator operation. -/
theorem applyOp_log_take (op : CalcOp) (st : CalcState) (k : ℕ)
    (hk : k ≤ st.route_log.length) :
    (applyOp op st).route_log.take k = st.route_log.take k := by
  cases op with
  | appendSystem s => rfl
  | clearSystems => rfl
  | importCsv text =>
      show (import_route_from_csv st text).1.route_log.take k = _
      unfold import_route_from_csv
      cases importParse text with
      | ok imported => rfl
      | error msg => rfl
  | setSystems l => rfl
  | logRoute now systems total =>
      show (st.route_log ++ [_]).take k = st.route_log.take k
      exact List.take_append_of_le_length hk
  | setJumpRange r => rfl

/-- Any already recorded prefix of the history log is left unchanged by
any sequence of calculator operations. -/
theorem applyOps_log_take :
    ∀ (ops : List CalcOp) (st : CalcState) (k : ℕ),
      k ≤ st.route_log.length →
      (applyOps ops st).route_log.take k = st.route_log.take k := by
  intro ops
  induction ops with
  | nil => intro st k _; rfl
  | cons op ops' ih =>
    intro st k hk
    show (applyOps ops' (applyOp op st)).route_log.take k = _
    rw [ih (applyOp op st) k (le_trans hk (applyOp_log_length op st))]
    exact applyOp_log_take op st k hk

/-- C10: log_route appends exactly one history entry whose systems
field is the list of names of the passed route taken at call time, and
every subsequently applied calculator operation (adding, removing,
reordering or replacing live systems, importing, further logging, or
changing the jump range) leaves this entry and every earlier entry
unchanged. -/
theorem log_route_spec (st : CalcState) (now : String)
    (route : List Point) (total : ℝ) (ops : List CalcOp) :
    (log_route st now route total).route_log =
      st.route_log ++ [⟨now, route.map Point.name, total⟩] ∧
    (applyOps ops (log_route st now route total)).route_log.take
        (st.route_log.length + 1) =
      st.route_log ++ [⟨now, route.map Point.name, total⟩] := by
  constructor
  · rfl
  · have hlog : (log_route st now route total).route_log =
        st.route_log ++ [⟨now, route.map Point.name, total⟩] := rfl
    rw [applyOps_log_take ops (log_route st now route total)
      (st.route_log.length + 1) (by rw [hlog]; simp)]
    rw [hlog, List.take_of_length_le (by simp)]

/-- The digit characters are never a comma, newline, slash or minus
sign. -/
theorem digitChar_not_special (d : ℕ) :
    digitChar d ≠ ',' ∧ digitChar d ≠ '\n' ∧ digitChar d ≠ '/' ∧
      digitChar d ≠ '-' := by
  match d with
  | 0 => exact (by decide)
  | 1 => exact (by decide)
  | 2 => exact (by decide)
  | 3 => exact (by decide)
  | 4 => exact (by decide)
  | 5 => exact (by decide)
  | 6 => exact (by decide)
  | 7 => exact (by decide)
  | 8 => exact (by decide)
  | 9 => exact (by decide)
  | n + 10 => exact (by decide :
      ('*' : Char) ≠ ',' ∧ ('*' : Char) ≠ '\n' ∧ ('*' : Char) ≠ '/' ∧
        ('*' : Char) ≠ '-')

/-- Parsing inverts printing on a single digit below ten. -/
theorem charToDigit_digitChar (d : ℕ) (h : d < 10) :
    charToDigit (digitChar d) = some d := by
  interval_cases d <;> decide

/-- The printed form of a natural number is never empty. -/
theorem natStr_ne_nil (n : ℕ) : natStr n ≠ [] := by
  unfold natStr
  by_cases h : n = 0
  · rw [if_pos h]; exact List.cons_ne_nil _ _
  · rw [if_neg h]
    intro hmap
    have hd : Nat.digits 10 n ≠ [] := Nat.digits_ne_nil_iff_ne_zero.mpr h
    rw [List.map_eq_nil_iff, List.reverse_eq_nil_iff] at hmap
    exact hd hmap

/-- Every character of the printed form of a natural number is a digit
character. -/
theorem natStr_mem (n : ℕ) (c : Char) (hc : c ∈ natStr n) :
    ∃ d, c = digitChar d := by
  unfold natStr at hc
  by_cases h : n = 0
  · rw [if_pos h] at hc
    rcases List.mem_singleton.mp hc with rfl
    exact ⟨0, rfl⟩
  · rw [if_neg h] at hc
    obtain ⟨d, _, rfl⟩ := List.mem_map.mp hc
    exact ⟨d, rfl⟩

/-- The digit parser inverts the digit printer on lists of digits below
ten. -/
theorem parseDigits_map (ds : List ℕ) (h : ∀ d ∈ ds, d < 10) :
    parseDigits (ds.map digitChar) = some ds := by
  induction ds with
  | nil => rfl
  | cons d ds' ih =>
    have h1 : charToDigit (digitChar d) = some d :=
      charToDigit_digitChar d (h d (List.mem_cons_self d ds'))
    have h2 : parseDigits (ds'.map digitChar) = some ds' :=
      ih (fun x hx => h x (List.mem_cons_of_mem d hx))
    simp [parseDigits, h1, h2]

/-- The natural number parser inverts the printer. -/
theorem parseNat_natStr (n : ℕ) : parseNat (natStr n) = some n := by
  by_cases h : n = 0
  · subst h; rfl
  · have hprint : natStr n = ((Nat.digits 10 n).reverse).map digitChar := by
      unfold natStr; rw [if_neg h]
    have hlt : ∀ d ∈ (Nat.digits 10 n).reverse, d < 10 := by
      intro d hd
      exact Nat.digits_lt_base (by norm_num) (List.mem_reverse.mp hd)
    have hne : ¬ (natStr n).isEmpty = true := by
      rw [List.isEmpty_iff]
      exact natStr_ne_nil n
    unfold parseNat
    rw [if_neg hne, hprint, parseDigits_map _ hlt]
    simp [List.reverse_reverse, Nat.ofDigits_digits]

/-- The integer parser inverts the integer printer. -/
theorem parseInt_intStr (z : ℤ) : parseInt (intStr z) = some z := by
  by_cases hz : z < 0
  · have hprint : intStr z = '-' :: natStr z.natAbs := by
      unfold intStr; rw [if_pos hz]
    rw [hprint]
    have hhead : ('-' :: natStr z.natAbs).head? = some '-' := rfl
    unfold parseInt
    rw [if_pos hhead, List.tail_cons, parseNat_natStr]
    have habs : (z.natAbs : ℤ) = -z := Int.ofNat_natAbs_of_nonpos (le_of_lt hz)
    simp [habs]
  · have hprint : intStr z = natStr z.natAbs := by
      unfold intStr; rw [if_neg hz]
    obtain ⟨c, cs, hcons⟩ := List.exists_cons_of_ne_nil (natStr_ne_nil z.natAbs)
    have hcmem : c ∈ natStr z.natAbs := by
      rw [hcons]; exact List.mem_cons_self c cs
    obtain ⟨d, rfl⟩ := natStr_mem _ c hcmem
    have hhead : ¬ (natStr z.natAbs).head? = some '-' := by
      rw [hcons]
      intro hEq
      have : digitChar d = '-' := by
        simpa using hEq
      exact (digitChar_not_special d).2.2.2 this
    rw [hprint]
    unfold parseInt
    rw [if_neg hhead, parseNat_natStr]
    have habs : (z.natAbs : ℤ) = z := Int.natAbs_of_nonneg (not_lt.mp hz)
    simp [habs]

/-- No character of the printed natural number is a comma, newline,
slash or minus sign. -/
theorem natStr_no_special (n : ℕ) (c : Char) (hc : c ∈ natStr n) :
    c ≠ ',' ∧ c ≠ '\n' ∧ c ≠ '/' ∧ c ≠ '-' := by
  obtain ⟨d, rfl⟩ := natStr_mem n c hc
  exact digitChar_not_special d

/-- No character of the printed integer is a comma, newline or
slash. -/
theorem intStr_no_special (z : ℤ) (c : Char) (hc : c ∈ intStr z) :
    c ≠ ',' ∧ c ≠ '\n' ∧ c ≠ '/' := by
  unfold intStr at hc
  by_cases hz : z < 0
  · rw [if_pos hz] at hc
    rcases List.mem_cons.mp hc with rfl | hc'
    · exact (by decide)
    · have := natStr_no_special _ c hc'
      exact ⟨this.1, this.2.1, this.2.2.1⟩
  · rw [if_neg hz] at hc
    have := natStr_no_special _ c hc
    exact ⟨this.1, this.2.1, this.2.2.1⟩

/-- Splitting a list that does not contain the separator yields the
list itself as the only piece. -/
theorem splitOnChar_no_sep (sep : Char) :
    ∀ (l : List Char), sep ∉ l → splitOnChar sep l = [l] := by
  intro l
  induction l with
  | nil => intro _; rfl
  | cons c cs ih =>
    intro h
    have hc : ¬ c = sep := fun hEq => h (hEq ▸ List.mem_cons_self c cs)
    have hcs : sep ∉ cs := fun hm => h (List.mem_cons_of_mem c hm)
    simp only [splitOnChar, if_neg hc, ih hcs]

/-- Splitting peels off a separator-free prefix before a separator. -/
theorem splitOnChar_append (sep : Char) :
    ∀ (a b : List Char), sep ∉ a →
      splitOnChar sep (a ++ sep :: b) = a :: splitOnChar sep b := by
  intro a
  induction a with
  | nil =>
    intro b _
    simp [splitOnChar]
  | cons c a' ih =>
    intro b h
    have hc : ¬ c = sep := fun hEq => h (hEq ▸ List.mem_cons_self c a')
    have ha' : sep ∉ a' := fun hm => h (List.mem_cons_of_mem c hm)
    simp only [List.cons_append, splitOnChar, if_neg hc, List.append_eq,
      ih b ha']

/-- An Option bind with a constantly failing continuation fails. -/
theorem bind_const_none {α β : Type} (o : Option α) :
    o.bind (fun _ => (none : Option β)) = none := by
  cases o <;> rfl

/-- The rational parser inverts the rational printer. -/
theorem parseRat_fmtRat (q : ℚ) : parseRat (fmtRat q) = some q := by
  have h1 : ('/' : Char) ∉ intStr q.num := by
    intro hm
    exact (intStr_no_special q.num '/' hm).2.2 rfl
  have h2 : ('/' : Char) ∉ natStr q.den := by
    intro hm
    exact (natStr_no_special q.den '/' hm).2.2.1 rfl
  have hsplit : splitOnChar '/' (fmtRat q) = [intStr q.num, natStr q.den] := by
    unfold fmtRat
    rw [splitOnChar_append '/' _ _ h1, splitOnChar_no_sep '/' _ h2]
  unfold parseRat
  rw [hsplit]
  show ((parseInt (intStr q.num)).bind fun z =>
      (parseNat (natStr q.den)).bind fun n =>
        if n = 0 then none else some (mkRat z n)) = some q
  rw [parseInt_intStr, parseNat_natStr]
  show (if q.den = 0 then none else some (mkRat q.num q.den)) = some q
  rw [if_neg q.den_nz, Rat.mkRat_self]

/-- Binding a failing Option is a failure. -/
theorem none_bindO {α β : Type} (f : α → Option β) :
    (none : Option α).bind f = none := rfl

/-- The row traversal fails as soon as any row fails. -/
theorem mapMO_none_of_mem {α β : Type} (f : α → Option β) :
    ∀ (l : List α) (x : α), x ∈ l → f x = none → mapMO f l = none := by
  intro l
  induction l with
  | nil => intro x hx _; simp at hx
  | cons a l' ih =>
    intro x hx hfx
    rcases List.mem_cons.mp hx with rfl | hx'
    · simp only [mapMO, hfx]
    · show (match f a with
        | none => none
        | some b =>
            match mapMO f l' with
            | none => none
            | some bs => some (b :: bs)) = none
      rw [ih x hx' hfx]
      cases f a <;> rfl

/-- The row traversal succeeds on a mapped list when every mapped
element decodes back. -/
theorem mapMO_map_of_inverse {α β : Type} (f : β → Option α) (g : α → β) :
    ∀ (l : List α), (∀ x ∈ l, f (g x) = some x) →
      mapMO f (l.map g) = some l := by
  intro l
  induction l with
  | nil => intro _; rfl
  | cons a l' ih =>
    intro h
    show (match f (g a) with
      | none => none
      | some b =>
          match mapMO f (l'.map g) with
          | none => none
          | some bs => some (b :: bs)) = some (a :: l')
    rw [h a (List.mem_cons_self a l'), ih (fun x hx => h x (List.mem_cons_of_mem a hx))]

/-- Decoding one row of raw field values against the standard header
recovers the encoded system. -/
theorem parseRowO_fields (s : Point) :
    parseRowO requiredColumns (recordFields s) = some s := by
  show (some s.name.data).bind (fun nm =>
      ((some (fmtRat s.coordinates.x)).bind parseRat).bind (fun x =>
        ((some (fmtRat s.coordinates.y)).bind parseRat).bind (fun y =>
          ((some (fmtRat s.coordinates.z)).bind parseRat).bind (fun z =>
            some ⟨String.mk nm, ⟨x, y, z⟩⟩)))) = some s
  simp only [Option.some_bind, parseRat_fmtRat]

/-- Folding characters into the front field of the front record
prepends them to that field. -/
theorem foldr_consField (f g : List Char) (fs : List (List Char))
    (rs : List (List (List Char))) :
    f.foldr consField ((g :: fs) :: rs) = ((f ++ g) :: fs) :: rs := by
  induction f with
  | nil => rfl
  | cons c f' ih =>
    simp only [List.foldr_cons, ih]
    rfl

/-- Scanner step: an unquoted newline closes the current record. -/
theorem scan_newline (rest : List Char) :
    splitCsvAux ('\n' :: rest) false = [[]] :: splitCsvAux rest false := by
  simp [splitCsvAux]

/-- Scanner step: an unquoted comma closes the current field. -/
theorem scan_comma (rest : List Char) (r : List (List Char))
    (rs : List (List (List Char))) (h : splitCsvAux rest false = r :: rs) :
    splitCsvAux (',' :: rest) false = ([] :: r) :: rs := by
  simp [splitCsvAux, h]

/-- Scanner step: an unquoted quote opens a quoted field. -/
theorem scan_quote_open (rest : List Char) :
    splitCsvAux ('"' :: rest) false = splitCsvAux rest true := by
  simp [splitCsvAux]

/-- Scanner step: an ordinary unquoted character joins the current
field. -/
theorem scan_char (c : Char) (rest : List Char) (h1 : c ≠ '"')
    (h2 : c ≠ ',') (h3 : c ≠ '\n') :
    splitCsvAux (c :: rest) false = consField c (splitCsvAux rest false) := by
  simp [splitCsvAux, h1, h2, h3]

/-- Scanner step: a doubled quote inside a quoted field is a literal
quote. -/
theorem scan_quoted_escape (rest : List Char) :
    splitCsvAux ('"' :: '"' :: rest) true =
      consField '"' (splitCsvAux rest true) := by
  simp [splitCsvAux]

/-- Scanner step: a quote before a non-quote character closes the
quoted field and the next character is handled unquoted. -/
theorem scan_quoted_close (r0 : Char) (rest : List Char) (h : r0 ≠ '"') :
    splitCsvAux ('"' :: r0 :: rest) true = splitCsvAux (r0 :: rest) false := by
  by_cases h2 : r0 = ','
  · subst h2
    simp [splitCsvAux]
  · by_cases h3 : r0 = '\n'
    · subst h3
      simp [splitCsvAux]
    · simp [splitCsvAux, h, h2, h3]

/-- Scanner step: a quote at the end of the input closes the quoted
field and the text. -/
theorem scan_quoted_eof : splitCsvAux ['"'] true = [[[]]] := by
  simp [splitCsvAux]

/-- Scanner step: an ordinary character inside a quoted field joins the
current field. -/
theorem scan_quoted_char (c : Char) (rest : List Char) (h : c ≠ '"') :
    splitCsvAux (c :: rest) true = consField c (splitCsvAux rest true) := by
  cases rest with
  | nil => simp [splitCsvAux, h]
  | cons r0 rest2 => simp [splitCsvAux, h]

/-- Scanning a quote-comma-newline-free prefix folds its characters
into the current field. -/
theorem scan_bare :
    ∀ (f : List Char),
      (∀ c ∈ f, c ≠ '"' ∧ c ≠ ',' ∧ c ≠ '\n') → ∀ (rest : List Char),
      splitCsvAux (f ++ rest) false =
        f.foldr consField (splitCsvAux rest false) := by
  intro f
  induction f with
  | nil => intro _ rest; rfl
  | cons c f' ih =>
    intro hf rest
    have hc := hf c (List.mem_cons_self c f')
    rw [List.cons_append,
      scan_char c (f' ++ rest) hc.1 hc.2.1 hc.2.2,
      ih (fun x hx => hf x (List.mem_cons_of_mem c hx)) rest]
    rfl

/-- Scanning an escaped field body followed by its closing quote
recovers the field and resumes unquoted scanning. -/
theorem scan_quoted :
    ∀ (f : List Char) (rest : List Char), rest.head? ≠ some '"' →
      splitCsvAux (escapeQuotes f ++ '"' :: rest) true =
        f.foldr consField (splitCsvAux rest false) := by
  intro f
  induction f with
  | nil =>
    intro rest hrest
    cases rest with
    | nil =>
      show splitCsvAux ['"'] true = splitCsvAux [] false
      exact scan_quoted_eof
    | cons r0 rest2 =>
      have hr0 : r0 ≠ '"' := by
        intro hEq
        exact hrest (by rw [hEq]; rfl)
      show splitCsvAux ('"' :: r0 :: rest2) true =
        splitCsvAux (r0 :: rest2) false
      exact scan_quoted_close r0 rest2 hr0
  | cons c f' ih =>
    intro rest hrest
    by_cases hc : c = '"'
    · subst hc
      show splitCsvAux (escapeQuotes ('"' :: f') ++ '"' :: rest) true = _
      rw [show escapeQuotes ('"' :: f') = '"' :: '"' :: escapeQuotes f' from by
        simp [escapeQuotes]]
      rw [List.cons_append, List.cons_append, scan_quoted_escape,
        ih rest hrest]
      rfl
    · rw [show escapeQuotes (c :: f') = c :: escapeQuotes f' from by
        simp [escapeQuotes, hc]]
      rw [List.cons_append, scan_quoted_char c _ hc, ih rest hrest]
      rfl

/-- Scanning one encoded field folds exactly the original field value
into the current field, whether or not the encoder had to quote it. -/
theorem scan_encodeField (f : List Char) (rest : List Char)
    (hrest : rest.head? ≠ some '"') :
    splitCsvAux (encodeField f ++ rest) false =
      f.foldr consField (splitCsvAux rest false) := by
  by_cases hq : needsQuote f = true
  · rw [show encodeField f = '"' :: (escapeQuotes f ++ ['"']) from by
      simp [encodeField, hq]]
    rw [show ('"' :: (escapeQuotes f ++ ['"'])) ++ rest =
        '"' :: (escapeQuotes f ++ '"' :: rest) from by simp]
    rw [scan_quote_open]
    exact scan_quoted f rest hrest
  · rw [show encodeField f = f from by simp [encodeField, hq]]
    apply scan_bare
    have hq' : needsQuote f = false := Bool.eq_false_iff.mpr hq
    simp only [needsQuote, List.any_eq_false, Bool.or_eq_true, beq_iff_eq,
      not_or] at hq'
    exact fun c hc => ⟨(hq' c hc).1.1, (hq' c hc).1.2, (hq' c hc).2⟩

/-- Scanning one encoded record followed by a newline yields exactly
its field values as the first record. -/
theorem scan_encodeRecord_newline (rest : List Char) :
    ∀ (fields : List (List Char)), fields ≠ [] →
      splitCsvAux (encodeRecord fields ++ '\n' :: rest) false =
        fields :: splitCsvAux rest false := by
  intro fields
  induction fields with
  | nil => intro h; exact absurd rfl h
  | cons f tail ih =>
    intro _
    cases tail with
    | nil =>
      rw [show encodeRecord [f] = encodeField f from by
        simp [encodeRecord, joinWith]]
      rw [scan_encodeField f ('\n' :: rest) (by
        intro hEq
        exact absurd (Option.some.inj hEq) (by decide))]
      rw [scan_newline, foldr_consField, List.append_nil]
    | cons g more =>
      rw [show encodeRecord (f :: g :: more) =
          encodeField f ++ ',' :: encodeRecord (g :: more) from by
        simp [encodeRecord, joinWith]]
      rw [show (encodeField f ++ ',' :: encodeRecord (g :: more)) ++
          '\n' :: rest =
          encodeField f ++ ',' :: (encodeRecord (g :: more) ++ '\n' :: rest)
          from by simp]
      rw [scan_encodeField f _ (by
        intro hEq
        exact absurd (Option.some.inj hEq) (by decide))]
      rw [scan_comma _ _ _ (ih (List.cons_ne_nil g more))]
      rw [foldr_consField, List.append_nil]

/-- Scanning one encoded record at the end of the input yields exactly
its field values as the only record. -/
theorem scan_encodeRecord_eof :
    ∀ (fields : List (List Char)), fields ≠ [] →
      splitCsvAux (encodeRecord fields) false = [fields] := by
  intro fields
  induction fields with
  | nil => intro h; exact absurd rfl h
  | cons f tail ih =>
    intro _
    cases tail with
    | nil =>
      rw [show encodeRecord [f] = encodeField f from by
        simp [encodeRecord, joinWith]]
      rw [← List.append_nil (encodeField f)]
      rw [scan_encodeField f [] (by simp)]
      rw [show splitCsvAux [] false = ([] :: []) :: [] from rfl]
      rw [foldr_consField, List.append_nil]
    | cons g more =>
      rw [show encodeRecord (f :: g :: more) =
          encodeField f ++ ',' :: encodeRecord (g :: more) from by
        simp [encodeRecord, joinWith]]
      rw [scan_encodeField f _ (by
        intro hEq
        exact absurd (Option.some.inj hEq) (by decide))]
      rw [scan_comma _ _ _ (ih (List.cons_ne_nil g more))]
      rw [foldr_consField, List.append_nil]

/-- The scanner inverts the record encoder on any nonempty list of
nonempty records: encoding each record, joining with newlines and
rescanning returns exactly the original records, whatever characters
the fields hold. -/
theorem csvCells_records :
    ∀ (recs : List (List (List Char))), recs ≠ [] →
      (∀ r ∈ recs, r ≠ []) →
      csvCells (joinWith '\n' (recs.map encodeRecord)) = recs := by
  intro recs
  induction recs with
  | nil => intro h _; exact absurd rfl h
  | cons r tail ih =>
    intro _ hall
    cases tail with
    | nil =>
      show splitCsvAux (joinWith '\n' [encodeRecord r]) false = [r]
      rw [show joinWith '\n' [encodeRecord r] = encodeRecord r from by
        simp [joinWith]]
      exact scan_encodeRecord_eof r (hall r (List.mem_cons_self r []))
    | cons r2 more =>
      show splitCsvAux (joinWith '\n'
        (encodeRecord r :: encodeRecord r2 :: more.map encodeRecord))
        false = r :: r2 :: more
      rw [show joinWith '\n'
          (encodeRecord r :: encodeRecord r2 :: more.map encodeRecord) =
          encodeRecord r ++ '\n' ::
            joinWith '\n' (encodeRecord r2 :: more.map encodeRecord) from by
        simp [joinWith]]
      rw [scan_encodeRecord_newline _ r (hall r (List.mem_cons_self r _))]
      have htail := ih (List.cons_ne_nil r2 more)
        (fun x hx => hall x (List.mem_cons_of_mem r hx))
      show r :: splitCsvAux
        (joinWith '\n' ((r2 :: more).map encodeRecord)) false = _
      rw [show splitCsvAux
          (joinWith '\n' ((r2 :: more).map encodeRecord)) false =
          csvCells (joinWith '\n' ((r2 :: more).map encodeRecord)) from rfl,
        htail]

/-- The take of a list up to a separator that its prefix avoids. -/
theorem takeWhile_append_stop (p : Char → Bool) :
    ∀ (a : List Char) (c : Char) (b : List Char),
      (∀ x ∈ a, p x = true) → p c = false →
      (a ++ c :: b).takeWhile p = a := by
  intro a
  induction a with
  | nil =>
    intro c b _ hc
    simp [List.takeWhile_cons, hc]
  | cons x a' ih =>
    intro c b ha hc
    have hx : p x = true := ha x (List.mem_cons_self x a')
    rw [List.cons_append, List.takeWhile_cons, hx]
    simp only [if_true]
    rw [ih c b (fun y hy => ha y (List.mem_cons_of_mem x hy)) hc]

/-- The standard header is the encoding of the required column
record. -/
theorem headerChars_record : headerChars = encodeRecord requiredColumns := by
  decide

/-- C7: for every nonempty route, the export succeeds, the first line
of the exported text is the fixed header System Name,X,Y,Z, the text
tokenizes into the header record followed by exactly one record per
point in input order holding the name and the three printed
coordinates, and decoding the exported text returns exactly the
original points, every name and every coordinate value preserved. No
restriction on the names is needed: fields holding commas, quotes or
newlines are written quoted by the csv.writer model and read back by
the quote-aware scanner, newline-bearing names spanning physical lines
inside their quotes. -/
theorem csv_roundtrip (systems : List Point) (hne : systems ≠ []) :
    ∃ text, export_route_to_csv systems = some text ∧
      text.takeWhile (fun c => c ≠ '\n') = headerChars ∧
      csvCells text = requiredColumns :: systems.map recordFields ∧
      importParse text = .ok systems := by
  obtain ⟨s0, ss, hsys⟩ : ∃ s0 ss, systems = s0 :: ss := by
    cases systems with
    | nil => exact absurd rfl hne
    | cons a b => exact ⟨a, b, rfl⟩
  have hmapenc : headerChars :: systems.map rowChars =
      (requiredColumns :: systems.map recordFields).map encodeRecord := by
    rw [List.map_cons, ← headerChars_record, List.map_map]
    rfl
  have hcells : csvCells (joinWith '\n'
      (headerChars :: systems.map rowChars)) =
      requiredColumns :: systems.map recordFields := by
    rw [hmapenc]
    apply csvCells_records
    · exact List.cons_ne_nil _ _
    · intro r hr
      rcases List.mem_cons.mp hr with rfl | hr'
      · decide
      · obtain ⟨s, _, rfl⟩ := List.mem_map.mp hr'
        simp [recordFields]
  refine ⟨joinWith '\n' (headerChars :: systems.map rowChars),
    ?_, ?_, hcells, ?_⟩
  · unfold export_route_to_csv
    rw [if_neg hne]
  · rw [hsys, List.map_cons]
    rw [show joinWith '\n'
        (headerChars :: rowChars s0 :: (ss.map rowChars)) =
        headerChars ++ '\n' ::
          joinWith '\n' (rowChars s0 :: ss.map rowChars) from by
      simp [joinWith]]
    exact takeWhile_append_stop _ headerChars '\n' _ (by decide) (by decide)
  · unfold importParse
    rw [hcells]
    show importParseLines requiredColumns (systems.map recordFields) =
      .ok systems
    simp only [importParseLines]
    rw [if_pos (by decide :
      (requiredColumns.all fun c => requiredColumns.contains c) = true)]
    rw [mapMO_map_of_inverse (parseRowO requiredColumns) recordFields
      systems (fun s _ => parseRowO_fields s)]

/-- Witness for C7 on the concrete one-system route. -/
theorem csv_roundtrip_witness :
    ∃ text, export_route_to_csv [pA] = some text ∧
      text.takeWhile (fun c => c ≠ '\n') = headerChars ∧
      csvCells text = requiredColumns :: [pA].map recordFields ∧
      importParse text = .ok [pA] :=
  csv_roundtrip [pA] (by decide)

/-- C5: whenever the input text is malformed in the sense of the claim
(a required column is missing from the header, or some data row has a
missing or unparsable X, Y or Z field), the import fails with an error
message, returns the failure flag, and leaves the calculator state
completely unchanged: no points are imported. -/
theorem import_malformed_atomic (st : CalcState) (text : List Char)
    (h : csvMalformedB text = true) :
    (import_route_from_csv st text).1 = st ∧
    (import_route_from_csv st text).2.1 = false ∧
    ∃ msg, importParse text = .error msg := by
  have herr : ∃ msg, importParse text = .error msg := by
    cases hsplit : csvCells text with
    | nil => exact ⟨_, by unfold importParse; rw [hsplit]⟩
    | cons header dataRows =>
      have htext : importParse text = importParseLines header dataRows := by
        unfold importParse
        rw [hsplit]
      rw [htext]
      have hm : csvMalformedLines header dataRows = true := by
        unfold csvMalformedB at h
        rw [hsplit] at h
        exact h
      simp only [csvMalformedLines, Bool.or_eq_true, Bool.not_eq_true',
        List.any_eq_true] at hm
      simp only [importParseLines]
      rcases hm with hm | hm
      · rw [if_neg (by rw [hm]; exact Bool.false_ne_true)]
        exact ⟨_, rfl⟩
      · obtain ⟨fields, hfields, c, hc, hnone⟩ := hm
        rw [Option.isNone_iff_eq_none] at hnone
        have hrow : parseRowO header fields = none := by
          fin_cases hc <;>
            · simp only [parseRowO]
              rw [hnone]
              simp only [none_bindO, bind_const_none]
        have hmap : mapMO (parseRowO header) dataRows = none :=
          mapMO_none_of_mem _ dataRows fields hfields hrow
        by_cases hall : (requiredColumns.all
            (fun c => header.contains c)) = true
        · rw [if_pos hall, hmap]
          exact ⟨_, rfl⟩
        · rw [if_neg hall]
          exact ⟨_, rfl⟩
  obtain ⟨msg, hmsg⟩ := herr
  have himp : import_route_from_csv st text = (st, false, msg) := by
    unfold import_route_from_csv
    rw [hmsg]
  rw [himp]
  exact ⟨rfl, rfl, msg, hmsg⟩

/-- The missing-Z scenario text from the spec. -/
def sampleBadCsv : List Char := "System Name,X,Y\nAlpha,1,2".toList

/-- Witness for C5 on the concrete text whose header misses the Z
column. -/
theorem import_malformed_atomic_witness :
    (import_route_from_csv (CalcState.mk [] [] 0) sampleBadCsv).1 =
      CalcState.mk [] [] 0 ∧
    (import_route_from_csv (CalcState.mk [] [] 0) sampleBadCsv).2.1 = false ∧
    ∃ msg, importParse sampleBadCsv = .error msg :=
  import_malformed_atomic (CalcState.mk [] [] 0) sampleBadCsv (by decide)

/-- A well-formed single-row CSV text used for the C6 counterexample. -/
def sampleGoodCsv : List Char := "System Name,X,Y,Z\nBeta,1,2,3".toList

/-- C6 counterexample: a successful import does merge the decoded
points into the live route: starting from a state whose live route
holds one system, importing a valid text succeeds and the live systems
list afterwards differs from the one before. -/
theorem import_mutates_live_route :
    (import_route_from_csv (CalcState.mk [pA] [] 0) sampleGoodCsv).2.1 =
      true ∧
    (import_route_from_csv (CalcState.mk [pA] [] 0) sampleGoodCsv).1.systems ≠
      [pA] := by
  constructor
  · decide
  · decide

/-- C6 amended: on a successful decode, import_route_from_csv appends
the decoded points to the existing live route (self.systems.extend),
leaving the previously present points and the history log unchanged;
the live route is therefore extended, not left intact. -/
theorem import_appends_on_success (st : CalcState) (text : List Char)
    (imported : List Point) (h : importParse text = .ok imported) :
    (import_route_from_csv st text).1.systems = st.systems ++ imported ∧
    (import_route_from_csv st text).1.route_log = st.route_log ∧
    (import_route_from_csv st text).2.1 = true := by
  unfold import_route_from_csv
  rw [h]
  exact ⟨rfl, rfl, rfl⟩

/-- Witness for the amended C6 on the concrete one-row import. -/
theorem import_appends_on_success_witness :
    (import_route_from_csv (CalcState.mk [pA] [] 0) sampleGoodCsv).1.systems =
      [pA] ++ [Point.mk "Beta" (Coords.mk 1 2 3)] ∧
    (import_route_from_csv (CalcState.mk [pA] [] 0)
      sampleGoodCsv).1.route_log = [] ∧
    (import_route_from_csv (CalcState.mk [pA] [] 0) sampleGoodCsv).2.1 =
      true :=
  import_appends_on_success (CalcState.mk [pA] [] 0) sampleGoodCsv
    [Point.mk "Beta" (Coords.mk 1 2 3)] rfl
